import Mathlib

/-!
# OntarioDoctor — verification of the query-orchestration and chat-front-end spec

Shallow embedding of the OntarioDoctor repository.  The frontend store,
input box and message formatting are translated from the TypeScript/Vue
sources under `src/frontend`.  The retrieval/orchestration core (Rule
Matcher, Rank Fuser, Evidence Assembler, Orchestrator) exists in the
repository only as a design document, so those components are modelled
from the specification text, as marked on each definition.
-/

namespace OntarioDoctor

/-! ## Frontend data model, from src/frontend/src/types/chat.ts -/

inductive Role where
  | user
  | assistant
  | system
deriving DecidableEq, Repr

structure Message where
  role : Role
  content : String
deriving DecidableEq, Repr

/-- Frontend citation shape from types/chat.ts (`{id, title, url, source}`). -/
structure FrontCitation where
  id : Nat
  title : String
  url : String
  source : String
deriving DecidableEq, Repr

inductive TriageLevel where
  | primaryCare
  | er
  | e911
deriving DecidableEq, Repr

structure ChatResponse where
  answer : String
  citations : List FrontCitation
  triage : TriageLevel
  red_flags : List String
  latency_ms : Option Nat
deriving DecidableEq, Repr

/-- The reactive state held by the Pinia chat store (src/frontend/src/stores/chatStore.ts). -/
structure ChatState where
  messages : List Message
  citations : List FrontCitation
  currentTriage : TriageLevel
  redFlags : List String
  loading : Bool
  error : Option String
  latency : Option Nat
deriving DecidableEq, Repr

/-- `hasMessages` computed: `messages.value.length > 0`. -/
def hasMessages (st : ChatState) : Bool :=
  decide (0 < st.messages.length)

/-- `isEmergency` computed: `currentTriage.value === 'ER' || currentTriage.value === '911'`. -/
def isEmergency (st : ChatState) : Bool :=
  st.currentTriage == TriageLevel.er || st.currentTriage == TriageLevel.e911

/-- Whitespace characters removed by JavaScript `String.prototype.trim` (common ASCII set). -/
def jsWhitespace (c : Char) : Bool :=
  c == ' ' || c == '\t' || c == '\n' || c == '\r' || c == '\x0b' || c == '\x0c'

/-- JavaScript `content.trim()`. -/
def jsTrim (s : String) : String :=
  ⟨((s.data.dropWhile jsWhitespace).reverse.dropWhile jsWhitespace).reverse⟩

/-- JavaScript `response.latency_ms || null`: `0` and `undefined` are falsy. -/
def jsOrNull (x : Option Nat) : Option Nat :=
  match x with
  | some n => if n = 0 then none else some n
  | none => none

/--
`sendMessage` from chatStore.ts.  The API call is injected as a function from
the posted message list to either a response or an error message; the second
component of the result records whether the API was called at all.
The returned state is the state after the `finally` block ran.
-/
def sendMessage (st : ChatState) (content : String)
    (api : List Message → Except String ChatResponse) : ChatState × Bool :=
  if jsTrim content = "" then (st, false)
  else
    let msgs1 := st.messages ++ [⟨Role.user, jsTrim content⟩]
    match api msgs1 with
    | Except.ok r =>
      ({ st with
          messages := msgs1 ++ [⟨Role.assistant, r.answer⟩]
          citations := r.citations
          currentTriage := r.triage
          redFlags := r.red_flags
          latency := jsOrNull r.latency_ms
          error := none
          loading := false }, true)
    | Except.error e =>
      ({ st with messages := msgs1, error := some e, loading := false }, true)

/-- `clearHistory` from chatStore.ts; note that `loading` is not reset. -/
def clearHistory (st : ChatState) : ChatState :=
  { st with
      messages := []
      citations := []
      currentTriage := TriageLevel.primaryCare
      redFlags := []
      error := none
      latency := none }

/--
`handleSubmit` from the InputBox component: returns the emitted submit payload
(`none` when no event is emitted) and the new value of the input field.
-/
def handleSubmit (input : String) (disabled : Bool) : Option String × String :=
  let content := jsTrim input
  if content = "" || disabled then (none, input)
  else (some content, "")

/-! ## Theorems about the chat store -/

/-- C9: after `clearHistory`, regardless of prior state, messages and citations are
empty, triage is primary-care, red flags are empty, error and latency are null,
and the derived `hasMessages` and `isEmergency` are both false. -/
theorem clearHistory_resets (st : ChatState) :
    (clearHistory st).messages = [] ∧
    (clearHistory st).citations = [] ∧
    (clearHistory st).currentTriage = TriageLevel.primaryCare ∧
    (clearHistory st).redFlags = [] ∧
    (clearHistory st).error = none ∧
    (clearHistory st).latency = none ∧
    hasMessages (clearHistory st) = false ∧
    isEmergency (clearHistory st) = false := by
  refine ⟨rfl, rfl, rfl, rfl, rfl, rfl, ?_, ?_⟩ <;> simp [clearHistory, hasMessages, isEmergency]

/-- C10: for input whose trim is empty, `sendMessage` returns with the state
unmodified and no API call, and the InputBox emits no submit event and leaves
the input field unchanged. -/
theorem sendMessage_blank_noop (st : ChatState) (content : String)
    (api : List Message → Except String ChatResponse) (disabled : Bool)
    (h : jsTrim content = "") :
    sendMessage st content api = (st, false) ∧
    (handleSubmit content disabled).1 = none ∧
    (handleSubmit content disabled).2 = content := by
  refine ⟨?_, ?_, ?_⟩ <;> simp [sendMessage, handleSubmit, h]

theorem sendMessage_blank_noop_witness :
    sendMessage ⟨[], [], TriageLevel.primaryCare, [], false, none, none⟩ "  \n "
        (fun _ => Except.error "x") = (⟨[], [], TriageLevel.primaryCare, [], false, none, none⟩, false) ∧
    (handleSubmit "  \n " false).1 = none ∧
    (handleSubmit "  \n " false).2 = "  \n " :=
  sendMessage_blank_noop ⟨[], [], TriageLevel.primaryCare, [], false, none, none⟩ "  \n "
    (fun _ => Except.error "x") false (by decide)

/-- C5 counterexample: with empty history, message "hi" and a failing API call,
the message history is not unchanged — the user turn was already appended. -/
theorem sendMessage_error_keeps_user_turn :
    ¬ ((sendMessage ⟨[], [], TriageLevel.primaryCare, [], false, none, none⟩ "hi"
        (fun _ => Except.error "boom")).1.messages = []) := by
  decide

/-- C5 (amended): on a successful request the user turn and then the assistant
turn are appended in that order; on a failed request the user turn (appended
before the call) remains and only the assistant turn is missing, with the
error recorded. -/
theorem sendMessage_turn_log (st : ChatState) (content : String)
    (api : List Message → Except String ChatResponse)
    (h : ¬ jsTrim content = "") :
    (∀ r, api (st.messages ++ [⟨Role.user, jsTrim content⟩]) = Except.ok r →
      (sendMessage st content api).1.messages
        = st.messages ++ [⟨Role.user, jsTrim content⟩, ⟨Role.assistant, r.answer⟩]) ∧
    (∀ e, api (st.messages ++ [⟨Role.user, jsTrim content⟩]) = Except.error e →
      (sendMessage st content api).1.messages = st.messages ++ [⟨Role.user, jsTrim content⟩] ∧
      (sendMessage st content api).1.error = some e) := by
  constructor
  · intro r hr
    simp [sendMessage, h, hr]
  · intro e he
    simp [sendMessage, h, he]

theorem sendMessage_turn_log_witness :
    (sendMessage ⟨[], [], TriageLevel.primaryCare, [], false, none, none⟩ "hi"
        (fun _ => Except.error "boom")).1.messages = [] ++ [⟨Role.user, "hi"⟩] ∧
    (sendMessage ⟨[], [], TriageLevel.primaryCare, [], false, none, none⟩ "hi"
        (fun _ => Except.error "boom")).1.error = some "boom" :=
  (sendMessage_turn_log ⟨[], [], TriageLevel.primaryCare, [], false, none, none⟩ "hi"
    (fun _ => Except.error "boom") (by decide)).2 "boom" rfl

/-! ## Rule Matcher (spec §4.1, §3) -/

/-- Modelled from the spec: `GuardrailRule.action` is `ER|EMERGENCY` (§3). -/
inductive RuleAction where
  | ER
  | EMERGENCY
deriving DecidableEq, Repr

/-- Modelled from the spec: `GuardrailRule` = `{priority, required_tokens, action, message}`
(§3); the required tokens are carried as a list standing for a finite set. -/
structure GuardrailRule where
  priority : Nat
  required_tokens : List String
  action : RuleAction
  message : String
deriving DecidableEq, Repr

/-- Modelled from the spec: `TriageDecision` = `{level, matched_rule, message}` (§3). -/
structure TriageDecision where
  level : TriageLevel
  matched_rule : Option GuardrailRule
  message : String
deriving DecidableEq, Repr

/-- Modelled from the spec: the triage level produced by a rule's action
(`ER → ER`, `EMERGENCY → 911`). -/
def actionLevel : RuleAction → TriageLevel
  | RuleAction.ER => TriageLevel.er
  | RuleAction.EMERGENCY => TriageLevel.e911

/-- Modelled from the spec: a rule matches iff `rule.required_tokens ⊆ tokens` (§4.1). -/
def ruleMatches (r : GuardrailRule) (tokens : List String) : Bool :=
  r.required_tokens.all (fun t => tokens.contains t)

/-- Comparison used to keep the rule table in ascending priority order. -/
def rulePriorityLe (a b : GuardrailRule) : Prop := a.priority ≤ b.priority

instance : DecidableRel rulePriorityLe := fun a b => by
  unfold rulePriorityLe; infer_instance

instance : IsTotal GuardrailRule rulePriorityLe :=
  ⟨fun a b => Nat.le_total a.priority b.priority⟩

instance : IsTrans GuardrailRule rulePriorityLe :=
  ⟨fun _ _ _ => Nat.le_trans⟩

/-- Modelled from the spec: the static rule table is a priority-ordered array (§9);
loading sorts it in ascending priority order (a stable sort, so table order
breaks exact priority ties). -/
def sortedRules (rules : List GuardrailRule) : List GuardrailRule :=
  List.insertionSort rulePriorityLe rules

/-- Modelled from the spec: iterate rules in order; first match wins and
short-circuits (§4.1). -/
def firstMatch (tokens : List String) : List GuardrailRule → Option GuardrailRule
  | [] => none
  | r :: rest => if ruleMatches r tokens then some r else firstMatch tokens rest

/-- Modelled from the spec: `match(tokens) -> TriageDecision` (§4.1): walk the rule
table in ascending priority order, first match wins; `level=primary-care,
matched_rule=none` when no rule matches. -/
def ruleMatch (rules : List GuardrailRule) (tokens : List String) : TriageDecision :=
  match firstMatch tokens (sortedRules rules) with
  | some r => ⟨actionLevel r.action, some r, r.message⟩
  | none => ⟨TriageLevel.primaryCare, none, ""⟩

theorem firstMatch_eq_none_iff (tokens : List String) (l : List GuardrailRule) :
    firstMatch tokens l = none ↔ ∀ r ∈ l, ruleMatches r tokens = false := by
  induction l with
  | nil => simp [firstMatch]
  | cons a rest ih =>
    by_cases h : ruleMatches a tokens
    · simp [firstMatch, h]
    · simp only [firstMatch, if_neg h, ih, List.mem_cons]
      constructor
      · intro hall r hr
        rcases hr with rfl | hr
        · exact Bool.eq_false_iff.mpr h
        · exact hall r hr
      · intro hall r hr
        exact hall r (Or.inr hr)

theorem firstMatch_mem_matches (tokens : List String) (l : List GuardrailRule)
    (r : GuardrailRule) (h : firstMatch tokens l = some r) :
    r ∈ l ∧ ruleMatches r tokens = true := by
  induction l with
  | nil => simp [firstMatch] at h
  | cons a rest ih =>
    by_cases ha : ruleMatches a tokens
    · simp only [firstMatch, if_pos ha, Option.some.injEq] at h
      subst h
      exact ⟨List.mem_cons_self _ _, ha⟩
    · simp only [firstMatch, if_neg ha] at h
      obtain ⟨hmem, hm⟩ := ih h
      exact ⟨List.mem_cons_of_mem _ hmem, hm⟩

theorem firstMatch_lowest (tokens : List String) (l : List GuardrailRule)
    (hs : List.Sorted rulePriorityLe l)
    (r : GuardrailRule) (h : firstMatch tokens l = some r) :
    ∀ x ∈ l, ruleMatches x tokens = true → r.priority ≤ x.priority := by
  induction l with
  | nil => simp [firstMatch] at h
  | cons a rest ih =>
    intro x hx hmx
    by_cases ha : ruleMatches a tokens
    · simp only [firstMatch, if_pos ha, Option.some.injEq] at h
      subst h
      rcases List.mem_cons.mp hx with rfl | hx
      · exact Nat.le_refl _
      · exact (List.sorted_cons.mp hs).1 x hx
    · simp only [firstMatch, if_neg ha] at h
      rcases List.mem_cons.mp hx with rfl | hx
      · exact absurd hmx (by simp [ha])
      · exact ih (List.sorted_cons.mp hs).2 h x hx hmx

/-- C2: the Rule Matcher returns a matching rule of lowest priority number among
all matching rules, and returns `level=primary-care` with `matched_rule=none`
iff no rule in the table matches. -/
theorem ruleMatch_lowest_priority (rules : List GuardrailRule) (tokens : List String) :
    (∀ r, (ruleMatch rules tokens).matched_rule = some r →
      r ∈ rules ∧ ruleMatches r tokens = true ∧
      (ruleMatch rules tokens).level = actionLevel r.action ∧
      ∀ x ∈ rules, ruleMatches x tokens = true → r.priority ≤ x.priority) ∧
    (((ruleMatch rules tokens).level = TriageLevel.primaryCare ∧
      (ruleMatch rules tokens).matched_rule = none) ↔
      ∀ x ∈ rules, ruleMatches x tokens = false) := by
  have hperm : (sortedRules rules).Perm rules := List.perm_insertionSort _ _
  have hsort : List.Sorted rulePriorityLe (sortedRules rules) :=
    List.sorted_insertionSort _ _
  constructor
  · intro r hr
    cases hfm : firstMatch tokens (sortedRules rules) with
    | none => simp [ruleMatch, hfm] at hr
    | some r0 =>
      have hr0 : r0 = r := by simpa [ruleMatch, hfm] using hr
      subst hr0
      obtain ⟨hmem, hm⟩ := firstMatch_mem_matches tokens _ r0 hfm
      refine ⟨hperm.mem_iff.mp hmem, hm, by simp [ruleMatch, hfm], ?_⟩
      intro x hx hmx
      exact firstMatch_lowest tokens _ hsort r0 hfm x (hperm.mem_iff.mpr hx) hmx
  · constructor
    · intro hpair x hx
      cases hfm : firstMatch tokens (sortedRules rules) with
      | some r0 => simp [ruleMatch, hfm] at hpair
      | none =>
        exact (firstMatch_eq_none_iff tokens _).mp hfm x (hperm.mem_iff.mpr hx)
    · intro hall
      have hfm : firstMatch tokens (sortedRules rules) = none :=
        (firstMatch_eq_none_iff tokens _).mpr
          (fun r hr => hall r (hperm.mem_iff.mp hr))
      simp [ruleMatch, hfm]

theorem ruleMatch_lowest_priority_witness :
    (ruleMatch [⟨2, ["a"], RuleAction.ER, "m2"⟩, ⟨1, ["b"], RuleAction.EMERGENCY, "m1"⟩]
      ["a"]).level = actionLevel RuleAction.ER :=
  ((ruleMatch_lowest_priority
      [⟨2, ["a"], RuleAction.ER, "m2"⟩, ⟨1, ["b"], RuleAction.EMERGENCY, "m1"⟩]
      ["a"]).1 ⟨2, ["a"], RuleAction.ER, "m2"⟩ (by decide)).2.2.1

/-! ## Rank Fuser (spec §4.2) -/

/-- Lexicographic order on character lists, used for the spec's
"lexicographically smallest doc_id" tie-break. -/
def lexLe : List Char → List Char → Bool
  | [], _ => true
  | _ :: _, [] => false
  | a :: as, b :: bs => if a = b then lexLe as bs else decide (a < b)

theorem lexLe_total (a b : List Char) : lexLe a b = true ∨ lexLe b a = true := by
  induction a generalizing b with
  | nil => exact Or.inl rfl
  | cons x xs ih =>
    cases b with
    | nil => exact Or.inr rfl
    | cons y ys =>
      by_cases hxy : x = y
      · subst hxy
        rcases ih ys with h | h
        · exact Or.inl (by simp [lexLe, h])
        · exact Or.inr (by simp [lexLe, h])
      · rcases lt_or_gt_of_ne hxy with h | h
        · exact Or.inl (by simp [lexLe, hxy, h])
        · exact Or.inr (by simp [lexLe, Ne.symm hxy, h])

theorem lexLe_trans {a b c : List Char} (h1 : lexLe a b = true) (h2 : lexLe b c = true) :
    lexLe a c = true := by
  induction a generalizing b c with
  | nil => rfl
  | cons x xs ih =>
    cases b with
    | nil => simp [lexLe] at h1
    | cons y ys =>
      cases c with
      | nil => simp [lexLe] at h2
      | cons z zs =>
        by_cases hxy : x = y <;> by_cases hyz : y = z
        · subst hxy; subst hyz
          simp only [lexLe, if_pos rfl] at h1 h2 ⊢
          exact ih h1 h2
        · subst hxy
          simp only [lexLe, if_pos rfl] at h1
          simpa [lexLe, hyz] using h2
        · subst hyz
          simp only [lexLe, if_pos rfl] at h2
          simpa [lexLe, hxy] using h1
        · simp only [lexLe, if_neg hxy, decide_eq_true_eq] at h1
          simp only [lexLe, if_neg hyz, decide_eq_true_eq] at h2
          have hxz : x < z := lt_trans h1 h2
          simp [lexLe, ne_of_lt hxz, hxz]

theorem lexLe_antisymm {a b : List Char} (h1 : lexLe a b = true) (h2 : lexLe b a = true) :
    a = b := by
  induction a generalizing b with
  | nil =>
    cases b with
    | nil => rfl
    | cons y ys => simp [lexLe] at h2
  | cons x xs ih =>
    cases b with
    | nil => simp [lexLe] at h1
    | cons y ys =>
      by_cases hxy : x = y
      · subst hxy
        simp only [lexLe, if_pos rfl] at h1 h2
        exact congrArg _ (ih h1 h2)
      · simp only [lexLe, if_neg hxy, decide_eq_true_eq] at h1
        simp only [lexLe, if_neg (Ne.symm hxy), decide_eq_true_eq] at h2
        exact absurd h2 (lt_asymm h1)

/-- Lexicographic order on doc ids. -/
def strLe (a b : String) : Bool := lexLe a.data b.data

/-- Modelled from the spec: the contribution of one provider's ranked list to
a document's fused score — `1/(K + r)` at 1-based rank `r`, `0` when the
document is missing from the list (§4.2). -/
def rrfContrib (K : ℚ) (L : List String) (d : String) : ℚ :=
  match L.findIdx? (fun x => x == d) with
  | some i => 1 / (K + (i : ℚ) + 1)
  | none => 0

/-- Modelled from the spec: a document's fused score is the sum of its
reciprocal-rank contributions over all provider lists (§4.2). -/
def fusedScore (K : ℚ) (lists : List (List String)) (d : String) : ℚ :=
  (lists.map (fun L => rrfContrib K L d)).sum

/-- Modelled from the spec: the distinct documents appearing in any provider
list (one fused candidate per distinct `doc_id`, §3). -/
def fuseCandidates (lists : List (List String)) : List String :=
  lists.flatten.dedup

/-- Modelled from the spec: the fused output ordering — descending fused score,
ties broken by the lexicographically smallest `doc_id` (§4.2). -/
def fuseRel (a b : String × ℚ) : Prop :=
  b.2 < a.2 ∨ (a.2 = b.2 ∧ strLe a.1 b.1 = true)

instance : DecidableRel fuseRel := fun a b => by
  unfold fuseRel; infer_instance

instance : IsTotal (String × ℚ) fuseRel := by
  constructor
  intro a b
  rcases lt_trichotomy a.2 b.2 with h | h | h
  · exact Or.inr (Or.inl h)
  · rcases lexLe_total a.1.data b.1.data with hl | hl
    · exact Or.inl (Or.inr ⟨h, hl⟩)
    · exact Or.inr (Or.inr ⟨h.symm, hl⟩)
  · exact Or.inl (Or.inl h)

instance : IsTrans (String × ℚ) fuseRel := by
  constructor
  intro a b c hab hbc
  rcases hab with hab | ⟨hab, hab2⟩
  · rcases hbc with hbc | ⟨hbc, _⟩
    · exact Or.inl (lt_trans hbc hab)
    · exact Or.inl (hbc ▸ hab)
  · rcases hbc with hbc | ⟨hbc, hbc2⟩
    · exact Or.inl (lt_of_lt_of_eq hbc hab.symm)
    · exact Or.inr ⟨hab.trans hbc, lexLe_trans hab2 hbc2⟩

instance : IsAntisymm (String × ℚ) fuseRel := by
  constructor
  intro a b hab hba
  rcases hab with hab | ⟨hab, hab2⟩
  · rcases hba with hba | ⟨hba, _⟩
    · exact absurd hba (lt_asymm hab)
    · exact absurd hab (by rw [hba]; exact lt_irrefl _)
  · rcases hba with hba | ⟨hba, hba2⟩
    · exact absurd hba (by rw [hab]; exact lt_irrefl _)
    · have hs : a.1.data = b.1.data := lexLe_antisymm hab2 hba2
      exact Prod.ext (String.ext hs) hab

/-- Modelled from the spec: `fuse(lists) -> ordered_sequence<FusedCandidate>` (§4.2):
each distinct document is paired with its fused score and the result is sorted
by descending fused score with lexicographic `doc_id` tie-break.  The provider
map is carried as the list of per-provider ranked doc-id lists. -/
def fuse (K : ℚ) (lists : List (List String)) : List (String × ℚ) :=
  List.insertionSort fuseRel
    ((fuseCandidates lists).map (fun d => (d, fusedScore K lists d)))

/-- Evaluation of the fuser on spec Scenario B's input: vector list `[A,B]`,
keyword list `[B,C]`, `K = 60`. -/
theorem fuse_scenarioB_eval : fuse 60 [["A","B"],["B","C"]]
    = [("B", 1/61 + 1/62), ("A", 1/61), ("C", 1/62)] := by
  have hA : fusedScore 60 [["A","B"],["B","C"]] "A" = 1/61 := by
    simp [fusedScore, rrfContrib, List.findIdx?]; norm_num
  have hB : fusedScore 60 [["A","B"],["B","C"]] "B" = 1/61 + 1/62 := by
    simp [fusedScore, rrfContrib, List.findIdx?]; norm_num
  have hC : fusedScore 60 [["A","B"],["B","C"]] "C" = 1/62 := by
    simp [fusedScore, rrfContrib, List.findIdx?]; norm_num
  have hc : fuseCandidates [["A","B"],["B","C"]] = ["A","B","C"] := by decide
  have hBC : fuseRel ("B", 1/61 + 1/62) ("C", 1/62) := Or.inl (by norm_num)
  have hAB : ¬ fuseRel ("A", (1:ℚ)/61) ("B", 1/61 + 1/62) := by
    intro h; rcases h with h | ⟨h, _⟩ <;> norm_num at h
  have hAC : fuseRel ("A", 1/61) ("C", 1/62) := Or.inl (by norm_num)
  unfold fuse
  rw [hc]
  simp only [List.map_cons, List.map_nil, hA, hB, hC]
  simp only [List.insertionSort, List.orderedInsert, if_pos hBC, if_neg hAB, if_pos hAC]

/-- C3 counterexample: on Scenario B's input the fused scores are not the ones
the claim states — `B` scores `1/61 + 1/62` (not `1/61 + 1/61`) and `A` scores
`1/61` (not `1/62`). -/
theorem fuse_scenarioB_claim_false :
    ¬ (fuse 60 [["A","B"],["B","C"]]
        = [("B", 1/61 + 1/61), ("A", 1/62), ("C", 1/62)]) := by
  intro h
  rw [fuse_scenarioB_eval] at h
  norm_num [Prod.ext_iff] at h

/-- C3 (amended): every fused candidate carries score `Σ 1/(K + r)` over the
provider lists (0 from lists it is absent from), output is ordered by
descending fused score with lexicographic `doc_id` tie-break and is a
permutation of the scored distinct candidates; on Scenario B the fused order
is `B` (score `1/61 + 1/62`), then `A` (`1/61`), then `C` (`1/62`). -/
theorem fuse_rrf (K : ℚ) (lists : List (List String)) :
    (∀ p ∈ fuse K lists, p.2 = fusedScore K lists p.1) ∧
    List.Sorted fuseRel (fuse K lists) ∧
    (fuse K lists).Perm
      ((fuseCandidates lists).map (fun d => (d, fusedScore K lists d))) ∧
    fuse 60 [["A","B"],["B","C"]] = [("B", 1/61 + 1/62), ("A", 1/61), ("C", 1/62)] := by
  refine ⟨?_, List.sorted_insertionSort _ _, List.perm_insertionSort _ _,
    fuse_scenarioB_eval⟩
  intro p hp
  have hp2 : p ∈ (fuseCandidates lists).map (fun d => (d, fusedScore K lists d)) :=
    (List.perm_insertionSort _ _).mem_iff.mp hp
  obtain ⟨d, _, rfl⟩ := List.mem_map.mp hp2
  rfl

theorem fuse_rrf_witness :
    ((1:ℚ)/61 = fusedScore 60 [["A","B"],["B","C"]] "A") :=
  (fuse_rrf 60 [["A","B"],["B","C"]]).1 ("A", 1/61)
    (by rw [fuse_scenarioB_eval]; simp)

/-- Rank fusion is invariant under permutation of the provider lists. -/
theorem fuse_perm (K : ℚ) {L1 L2 : List (List String)} (h : L1.Perm L2) :
    fuse K L1 = fuse K L2 := by
  have hscore : ∀ d, fusedScore K L1 d = fusedScore K L2 d := fun d =>
    (h.map (fun L => rrfContrib K L d)).sum_eq
  have hfun : (fun d => (d, fusedScore K L1 d)) = (fun d => (d, fusedScore K L2 d)) := by
    funext d
    rw [hscore d]
  have hcands : (fuseCandidates L1).Perm (fuseCandidates L2) :=
    h.flatten.dedup
  unfold fuse
  rw [hfun]
  exact List.eq_of_perm_of_sorted
    ((List.perm_insertionSort _ _).trans
      ((hcands.map _).trans (List.perm_insertionSort _ _).symm))
    (List.sorted_insertionSort _ _) (List.sorted_insertionSort _ _)

/-! ## Evidence Assembler (spec §4.3) -/

/-- Modelled from the spec: `Citation` = `{id (1-based, contiguous), doc_id,
title, url, source}` (§3). -/
structure Citation where
  id : Nat
  doc_id : String
  title : String
  url : String
  source : String
deriving DecidableEq, Repr

/-- Modelled from the spec: `ContextBundle` = `{ordered_chunks: [(citation_id,
text)], citations, total_tokens}` (§3). -/
structure ContextBundle where
  ordered_chunks : List (Nat × String)
  citations : List Citation
  total_tokens : Nat
deriving DecidableEq, Repr

/-- Modelled from the spec: what the assembler's `hit_lookup` collaborator
yields for a document — its chunk text, source, title, url and the chunk's
token count as measured by the supplied token-counting function (§4.3). -/
structure HitInfo where
  text : String
  source : String
  title : String
  url : String
  tokens : Nat
deriving DecidableEq, Repr

/-- Running token count of the accepted chunks. -/
def acceptedTokens (acc : List (String × HitInfo)) : Nat :=
  (acc.map (fun p => p.2.tokens)).sum

/-- How many accepted chunks already come from a given source. -/
def sourceCount (acc : List (String × HitInfo)) (s : String) : Nat :=
  (acc.filter (fun p => p.2.source == s)).length

/-- Modelled from the spec: the assembler's candidate walk (§4.3) — walk
candidates in fused order, skip duplicates by document identity, skip a
candidate whose source already has `max_per_source` accepted entries, stop once
`max_candidates` are accepted, and skip (without aborting) any chunk whose
addition would exceed `budget_tokens`. -/
def acceptWalk (lookup : String → HitInfo) (budget mps mc : Nat) :
    List String → List (String × HitInfo) → List (String × HitInfo)
  | [], acc => acc
  | d :: rest, acc =>
    if mc ≤ acc.length then acc
    else if acc.any (fun p => p.1 == d) then acceptWalk lookup budget mps mc rest acc
    else if mps ≤ sourceCount acc (lookup d).source then
      acceptWalk lookup budget mps mc rest acc
    else if budget < acceptedTokens acc + (lookup d).tokens then
      acceptWalk lookup budget mps mc rest acc
    else acceptWalk lookup budget mps mc rest (acc ++ [(d, lookup d)])

/-- Modelled from the spec: `assemble(candidates, hit_lookup, budget_tokens,
max_per_source, max_candidates) -> ContextBundle` (§4.3); citation ids `1..N`
are assigned in final acceptance order. -/
def assemble (cands : List String) (lookup : String → HitInfo)
    (budget mps mc : Nat) : ContextBundle :=
  let acc := acceptWalk lookup budget mps mc cands []
  { ordered_chunks := acc.enum.map (fun p => (p.1 + 1, p.2.2.text))
    citations := acc.enum.map (fun p => ⟨p.1 + 1, p.2.1, p.2.2.title, p.2.2.url, p.2.2.source⟩)
    total_tokens := acceptedTokens acc }

theorem acceptWalk_tokens_le (lookup : String → HitInfo) (budget mps mc : Nat)
    (cands : List String) (acc : List (String × HitInfo))
    (hacc : acceptedTokens acc ≤ budget) :
    acceptedTokens (acceptWalk lookup budget mps mc cands acc) ≤ budget := by
  induction cands generalizing acc with
  | nil => simpa [acceptWalk] using hacc
  | cons d rest ih =>
    by_cases h1 : mc ≤ acc.length
    · simpa [acceptWalk, h1] using hacc
    · by_cases h2 : acc.any (fun p => p.1 == d)
      · simpa [acceptWalk, h1, h2] using ih acc hacc
      · by_cases h3 : mps ≤ sourceCount acc (lookup d).source
        · simpa [acceptWalk, h1, h2, h3] using ih acc hacc
        · by_cases h4 : budget < acceptedTokens acc + (lookup d).tokens
          · simpa [acceptWalk, h1, h2, h3, h4] using ih acc hacc
          · have hfit : acceptedTokens (acc ++ [(d, lookup d)]) ≤ budget := by
              simpa [acceptedTokens] using Nat.le_of_not_lt h4
            simpa [acceptWalk, h1, h2, h3, h4] using ih _ hfit

theorem acceptWalk_all_over_budget (lookup : String → HitInfo) (budget mps mc : Nat)
    (cands : List String)
    (hall : ∀ d ∈ cands, budget < (lookup d).tokens) :
    acceptWalk lookup budget mps mc cands [] = [] := by
  induction cands with
  | nil => rfl
  | cons d rest ih =>
    have hrest : ∀ x ∈ rest, budget < (lookup x).tokens :=
      fun x hx => hall x (List.mem_cons_of_mem _ hx)
    by_cases h1 : mc ≤ 0
    · simp [acceptWalk, List.length_nil, h1]
    · have h4 : budget < acceptedTokens [] + (lookup d).tokens := by
        simpa [acceptedTokens] using hall d (List.mem_cons_self _ _)
      by_cases h3 : mps ≤ sourceCount [] (lookup d).source
      · simpa [acceptWalk, h1, h3] using ih hrest
      · simpa [acceptWalk, h1, h3, h4] using ih hrest

/-- C1 counterexample: with budget 50, a first candidate of 60 tokens and a
second of 10, the budget is smaller than the first chunk alone yet the bundle
is not empty — the walk continues and accepts the second chunk. -/
theorem assemble_small_budget_not_empty :
    50 < ((fun d => if d == "d1" then (⟨"t1", "s1", "", "", 60⟩ : HitInfo)
        else ⟨"t2", "s2", "", "", 10⟩) "d1").tokens ∧
    ¬ ((assemble ["d1", "d2"]
        (fun d => if d == "d1" then (⟨"t1", "s1", "", "", 60⟩ : HitInfo)
          else ⟨"t2", "s2", "", "", 10⟩) 50 2 5).ordered_chunks = []) := by
  constructor
  · decide
  · decide

/-- C1 (amended): `total_tokens <= budget_tokens` always holds; a chunk whose
addition would exceed the budget is skipped and the walk continues with the
next candidate (assembly is total and never aborts); when the budget is
smaller than every candidate chunk alone the result is an empty bundle, not an
error; and on Scenario D (budget 50, first chunk 40 tokens, second candidate
30 tokens) the bundle has exactly 1 chunk with `total_tokens = 40`. -/
theorem assemble_budget (cands : List String) (lookup : String → HitInfo)
    (budget mps mc : Nat) :
    (assemble cands lookup budget mps mc).total_tokens ≤ budget ∧
    ((∀ d ∈ cands, budget < (lookup d).tokens) →
      assemble cands lookup budget mps mc = ⟨[], [], 0⟩) ∧
    (assemble ["d1", "d2"]
        (fun d => if d == "d1" then (⟨"t1", "s1", "", "", 40⟩ : HitInfo)
          else ⟨"t2", "s2", "", "", 30⟩) 50 2 5).ordered_chunks.length = 1 ∧
    (assemble ["d1", "d2"]
        (fun d => if d == "d1" then (⟨"t1", "s1", "", "", 40⟩ : HitInfo)
          else ⟨"t2", "s2", "", "", 30⟩) 50 2 5).total_tokens = 40 := by
  refine ⟨?_, ?_, by decide, by decide⟩
  · exact acceptWalk_tokens_le lookup budget mps mc cands [] (by simp [acceptedTokens])
  · intro hall
    simp [assemble, acceptWalk_all_over_budget lookup budget mps mc cands hall,
      acceptedTokens]

theorem assemble_budget_witness :
    assemble ["d1"] (fun _ => (⟨"t1", "s1", "", "", 60⟩ : HitInfo)) 50 2 5 = ⟨[], [], 0⟩ :=
  (assemble_budget ["d1"] (fun _ => (⟨"t1", "s1", "", "", 60⟩ : HitInfo)) 50 2 5).2.1
    (by intro d _; decide)

theorem enumFrom_ids {α : Type} (n : Nat) (l : List α) :
    (List.enumFrom n l).map (fun p => p.1 + 1) = List.range' (n + 1) l.length := by
  induction l generalizing n with
  | nil => rfl
  | cons a rest ih =>
    simp only [List.enumFrom_cons, List.map_cons, List.length_cons, List.range'_succ]
    exact congrArg _ (ih (n + 1))

/-- The citation ids of an assembled bundle are exactly `1..N`, 1-based and
contiguous, in acceptance order; the chunk labels agree. -/
theorem assemble_ids (cands : List String) (lookup : String → HitInfo)
    (budget mps mc : Nat) :
    (assemble cands lookup budget mps mc).citations.map Citation.id
      = List.range' 1 (assemble cands lookup budget mps mc).citations.length ∧
    (assemble cands lookup budget mps mc).ordered_chunks.map Prod.fst
      = List.range' 1 (assemble cands lookup budget mps mc).ordered_chunks.length := by
  constructor
  · simp only [assemble, List.map_map, List.length_map, List.enum]
    have := enumFrom_ids 0 (acceptWalk lookup budget mps mc cands [])
    simpa [Function.comp] using this
  · simp only [assemble, List.map_map, List.length_map, List.enum]
    have := enumFrom_ids 0 (acceptWalk lookup budget mps mc cands [])
    simpa [Function.comp] using this

/-! ## Orchestrator (spec §4.6) -/

/-- Modelled from the spec: the orchestration state machine's states (§4.6). -/
inductive OrchState where
  | START
  | FEATURES_EXTRACTED
  | GUARDRAIL_CHECKED
  | EMERGENCY_FINALIZED
  | RETRIEVED
  | FUSED
  | ASSEMBLED
  | GENERATED
  | FINALIZED
  | ERROR
deriving DecidableEq, Repr

/-- Modelled from the spec: transient/non-transient generation failures (§4.5). -/
inductive GenErr where
  | timeout
  | failure
deriving DecidableEq, Repr

/-- Modelled from the spec: terminal error kinds surfaced to the caller (§7). -/
inductive ErrKind where
  | RetrievalUnavailable
  | GenerationTimeout
  | GenerationFailure
deriving DecidableEq, Repr

def genErrKind : GenErr → ErrKind
  | GenErr.timeout => ErrKind.GenerationTimeout
  | GenErr.failure => ErrKind.GenerationFailure

/-- Modelled from the spec: `Turn` = `{role, text}` in the Session Turn Log (§3). -/
structure Turn where
  role : Role
  text : String
deriving DecidableEq, Repr

/-- Modelled from the spec: `RequestOutcome` = `{answer, citations, triage,
red_flags}` (§3; the latency breakdown is not modelled). -/
structure RequestOutcome where
  answer : String
  citations : List Citation
  triage : TriageDecision
  red_flags : List String
deriving DecidableEq, Repr

/-- One orchestrated request: its outcome, the visited states in order,
whether the Generation Gateway was invoked, and the Session Turn Log after
the request. -/
structure OrchRun where
  outcome : Except ErrKind RequestOutcome
  trace : List OrchState
  genInvoked : Bool
  log : List Turn

/-- Modelled from the spec: the Orchestrator state machine (§4.6) — normalize
input → rule match → (emergency path | retrieve → fuse → assemble → generate)
→ finalize, appending the user and assistant turns to the Session Turn Log
only on `FINALIZED`.  Collaborators are injected: `providerResults` holds each
provider's ranked doc-id list (`none` for a failed provider), `genF` is the
Generation Gateway, `bestEffortCitations` the emergency path's best-effort
citation fetch. -/
def orchestrate (rules : List GuardrailRule) (tokens : List String)
    (providerResults : List (Option (List String)))
    (lookup : String → HitInfo) (budget mps mc : Nat)
    (genF : ContextBundle → Except GenErr String)
    (bestEffortCitations : List Citation)
    (log : List Turn) (userText : String) : OrchRun :=
  let d := ruleMatch rules tokens
  let pre := [OrchState.START, OrchState.FEATURES_EXTRACTED, OrchState.GUARDRAIL_CHECKED]
  if d.level = TriageLevel.primaryCare then
    let succ := providerResults.filterMap id
    if succ.isEmpty then
      { outcome := Except.error ErrKind.RetrievalUnavailable
        trace := pre ++ [OrchState.ERROR]
        genInvoked := false
        log := log }
    else
      let bundle := assemble ((fuse 60 succ).map Prod.fst) lookup budget mps mc
      match genF bundle with
      | Except.error e =>
        { outcome := Except.error (genErrKind e)
          trace := pre ++ [OrchState.RETRIEVED, OrchState.FUSED, OrchState.ASSEMBLED,
            OrchState.ERROR]
          genInvoked := true
          log := log }
      | Except.ok ans =>
        { outcome := Except.ok ⟨ans, bundle.citations, d, []⟩
          trace := pre ++ [OrchState.RETRIEVED, OrchState.FUSED, OrchState.ASSEMBLED,
            OrchState.GENERATED, OrchState.FINALIZED]
          genInvoked := true
          log := log ++ [⟨Role.user, userText⟩, ⟨Role.assistant, ans⟩] }
  else
    { outcome := Except.ok ⟨d.message, bestEffortCitations.take 2, d,
        (match d.matched_rule with
         | some r => r.required_tokens
         | none => [])⟩
      trace := pre ++ [OrchState.EMERGENCY_FINALIZED, OrchState.FINALIZED]
      genInvoked := false
      log := log ++ [⟨Role.user, userText⟩, ⟨Role.assistant, d.message⟩] }

/-- C4: whenever the triage level is not primary-care, the Generation Gateway
is never invoked and the run goes `GUARDRAIL_CHECKED → EMERGENCY_FINALIZED →
FINALIZED`, skipping retrieval, assembly and generation; in Scenario A (tokens
`{chest pain, shortness of breath}`, one priority-1 ER rule requiring exactly
those tokens) the decision level is ER and generation is never invoked. -/
theorem emergency_skips_generation (rules : List GuardrailRule) (tokens : List String)
    (providerResults : List (Option (List String)))
    (lookup : String → HitInfo) (budget mps mc : Nat)
    (genF : ContextBundle → Except GenErr String)
    (bestEffortCitations : List Citation)
    (log : List Turn) (userText : String)
    (h : ¬ (ruleMatch rules tokens).level = TriageLevel.primaryCare) :
    (orchestrate rules tokens providerResults lookup budget mps mc genF
        bestEffortCitations log userText).genInvoked = false ∧
    (orchestrate rules tokens providerResults lookup budget mps mc genF
        bestEffortCitations log userText).trace
      = [OrchState.START, OrchState.FEATURES_EXTRACTED, OrchState.GUARDRAIL_CHECKED,
         OrchState.EMERGENCY_FINALIZED, OrchState.FINALIZED] ∧
    (ruleMatch [⟨1, ["chest pain", "shortness of breath"], RuleAction.ER, "Call ER"⟩]
        ["chest pain", "shortness of breath"]).level = TriageLevel.er ∧
    (orchestrate [⟨1, ["chest pain", "shortness of breath"], RuleAction.ER, "Call ER"⟩]
        ["chest pain", "shortness of breath"] providerResults lookup budget mps mc genF
        bestEffortCitations log userText).genInvoked = false := by
  refine ⟨?_, ?_, by decide, ?_⟩
  · simp [orchestrate, if_neg h]
  · simp [orchestrate, if_neg h]
  · have hlevel : ¬ (ruleMatch
        [⟨1, ["chest pain", "shortness of breath"], RuleAction.ER, "Call ER"⟩]
        ["chest pain", "shortness of breath"]).level = TriageLevel.primaryCare := by
      decide
    simp [orchestrate, if_neg hlevel]

theorem emergency_skips_generation_witness :
    (orchestrate [⟨1, ["chest pain", "shortness of breath"], RuleAction.ER, "Call ER"⟩]
        ["chest pain", "shortness of breath"] [] (fun _ => ⟨"", "", "", "", 0⟩) 0 0 0
        (fun _ => Except.ok "x") [] [] "I have chest pain and shortness of breath").genInvoked
      = false :=
  (emergency_skips_generation
    [⟨1, ["chest pain", "shortness of breath"], RuleAction.ER, "Call ER"⟩]
    ["chest pain", "shortness of breath"] [] (fun _ => ⟨"", "", "", "", 0⟩) 0 0 0
    (fun _ => Except.ok "x") [] [] "I have chest pain and shortness of breath"
    (by decide)).1

/-- C6: for every assembled bundle the citation ids are exactly the contiguous
1-based set `1..N` in final acceptance order, both on the citations and on the
chunk labels, and a response produced through the generation path carries the
assembled bundle's citations, hence the same contiguous set. -/
theorem citation_ids_contiguous (cands : List String) (lookup : String → HitInfo)
    (budget mps mc : Nat) (rules : List GuardrailRule) (tokens : List String)
    (providerResults : List (Option (List String)))
    (genF : ContextBundle → Except GenErr String)
    (bestEffortCitations : List Citation)
    (log : List Turn) (userText : String) :
    (assemble cands lookup budget mps mc).citations.map Citation.id
      = List.range' 1 (assemble cands lookup budget mps mc).citations.length ∧
    (assemble cands lookup budget mps mc).ordered_chunks.map Prod.fst
      = List.range' 1 (assemble cands lookup budget mps mc).ordered_chunks.length ∧
    (∀ r, (orchestrate rules tokens providerResults lookup budget mps mc genF
          bestEffortCitations log userText).outcome = Except.ok r →
      (orchestrate rules tokens providerResults lookup budget mps mc genF
          bestEffortCitations log userText).genInvoked = true →
      r.citations
        = (assemble ((fuse 60 (providerResults.filterMap id)).map Prod.fst)
            lookup budget mps mc).citations ∧
      r.citations.map Citation.id = List.range' 1 r.citations.length) := by
  refine ⟨(assemble_ids cands lookup budget mps mc).1,
    (assemble_ids cands lookup budget mps mc).2, ?_⟩
  intro r hok hgen
  by_cases hlevel : (ruleMatch rules tokens).level = TriageLevel.primaryCare
  · by_cases hsucc : (providerResults.filterMap id).isEmpty
    · simp [orchestrate, hlevel, hsucc] at hok
    · cases hg : genF (assemble ((fuse 60 (providerResults.filterMap id)).map Prod.fst)
          lookup budget mps mc) with
      | error e => simp [orchestrate, hlevel, hsucc, hg] at hok
      | ok ans =>
        have hr : r = ⟨ans,
            (assemble ((fuse 60 (providerResults.filterMap id)).map Prod.fst)
              lookup budget mps mc).citations, ruleMatch rules tokens, []⟩ := by
          have := hok
          simp [orchestrate, hlevel, hsucc, hg] at this
          exact this.symm
        subst hr
        exact ⟨rfl, (assemble_ids _ lookup budget mps mc).1⟩
  · simp [orchestrate, hlevel] at hgen

theorem citation_ids_contiguous_witness :
    ((⟨"ok", [], ⟨TriageLevel.primaryCare, none, ""⟩, []⟩ : RequestOutcome).citations.map
        Citation.id
      = List.range' 1 ((⟨"ok", [], ⟨TriageLevel.primaryCare, none, ""⟩, []⟩ :
          RequestOutcome).citations.length)) :=
  ((citation_ids_contiguous [] (fun _ => ⟨"", "", "", "", 1⟩) 0 0 0 [] [] [some []]
      (fun _ => Except.ok "ok") [] [] "hello").2.2
    ⟨"ok", [], ⟨TriageLevel.primaryCare, none, ""⟩, []⟩ (by rfl) (by rfl)).2

/-- C7: rank fusion is commutative over the provider map — permuting the
provider lists leaves the fused output unchanged — and `fuse` followed by
`assemble` is a deterministic pure function: the composed pipeline gives equal
`ContextBundle`s on permuted provider inputs and identical bundles when run
twice on the same input. -/
theorem fuse_assemble_deterministic (K : ℚ) (L1 L2 : List (List String))
    (lookup : String → HitInfo) (budget mps mc : Nat) (h : L1.Perm L2) :
    fuse K L1 = fuse K L2 ∧
    assemble ((fuse K L1).map Prod.fst) lookup budget mps mc
      = assemble ((fuse K L2).map Prod.fst) lookup budget mps mc ∧
    assemble ((fuse K L1).map Prod.fst) lookup budget mps mc
      = assemble ((fuse K L1).map Prod.fst) lookup budget mps mc := by
  have hf := fuse_perm K h
  exact ⟨hf, by rw [hf], rfl⟩

theorem fuse_assemble_deterministic_witness :
    fuse 60 [["A"], ["B"]] = fuse 60 [["B"], ["A"]] :=
  (fuse_assemble_deterministic 60 [["A"], ["B"]] [["B"], ["A"]]
    (fun _ => ⟨"", "", "", "", 1⟩) 100 2 5 (List.Perm.swap _ _ _)).1

/-! ## Message formatting (src/frontend/src/components/MessageBubble.vue) -/

/-- One global single-character replacement, as JavaScript
`content.replace(/c/g, rep)` for a one-character pattern. -/
def replaceChar (c : Char) (rep : List Char) : List Char → List Char
  | [] => []
  | x :: rest => (if x = c then rep else [x]) ++ replaceChar c rep rest

def ampEntity : List Char := ['&', 'a', 'm', 'p', ';']

def ltEntity : List Char := ['&', 'l', 't', ';']

def gtEntity : List Char := ['&', 'g', 't', ';']

/-- The XSS escape in `formattedContent`: replace every `&`, then every `<`,
then every `>`, in that order. -/
def escapeHtml (l : List Char) : List Char :=
  replaceChar '>' gtEntity (replaceChar '<' ltEntity (replaceChar '&' ampEntity l))

def spanOpenTag : List Char :=
  ("<span class=\"citation-ref\" style=\"margin: 0 0.25rem; display: inline-block; border-radius: 0.25rem; background-color: rgb(59 130 246); padding: 0.125rem 0.375rem; font-size: 0.75rem; font-weight: 600; color: white;\">").data

def spanCloseTag : List Char := ("</span>").data

def strongOpenTag : List Char := ("<strong>").data

def strongCloseTag : List Char := ("</strong>").data

def emOpenTag : List Char := ("<em>").data

def emCloseTag : List Char := ("</em>").data

def brTag : List Char := ("<br>").data

/-- The only HTML tags the fixed rewrites of `formattedContent` can emit. -/
def allowedTags : List (List Char) :=
  [spanOpenTag, spanCloseTag, strongOpenTag, strongCloseTag, emOpenTag, emCloseTag, brTag]

/-- Greedy run of leading decimal digits (the `\d+` of the citation regex),
with the remainder of the string. -/
def digitRun : List Char → List Char × List Char
  | [] => ([], [])
  | c :: rest =>
    if c.isDigit then (c :: (digitRun rest).1, (digitRun rest).2)
    else ([], c :: rest)

theorem digitRun_append (l : List Char) : (digitRun l).1 ++ (digitRun l).2 = l := by
  induction l with
  | nil => rfl
  | cons c rest ih =>
    by_cases h : c.isDigit
    · simp [digitRun, h, ih]
    · simp [digitRun, h]

theorem digitRun_snd_length (l : List Char) : (digitRun l).2.length ≤ l.length := by
  induction l with
  | nil => exact Nat.le_refl _
  | cons c rest ih =>
    by_cases h : c.isDigit
    · simp only [digitRun, h, if_true]
      exact Nat.le_succ_of_le ih
    · simp [digitRun, h]

/-- The fixed markup emitted before a citation's digits:
`<span class="citation-ref" ...>[<strong>`. -/
def citePre : List Char := spanOpenTag ++ '[' :: strongOpenTag

/-- The fixed markup emitted after a citation's digits: `</strong>]</span>`. -/
def citePost : List Char := strongCloseTag ++ ']' :: spanCloseTag

/-- The citation rewrite
`content.replace(/\[(\d+)\]/g, '<span ...>[<strong>$1</strong>]</span>')`:
a global left-to-right scan replacing each `[digits]` marker. -/
def citeRewrite : List Char → List Char
  | [] => []
  | c :: rest =>
    if c = '[' ∧ (digitRun rest).1 ≠ [] ∧ (digitRun rest).2.head? = some ']' then
      citePre ++ (digitRun rest).1 ++ citePost ++ citeRewrite (digitRun rest).2.tail
    else c :: citeRewrite rest
termination_by l => l.length
decreasing_by
  · have h1 := digitRun_snd_length rest
    have h2 : (digitRun rest).2.tail.length ≤ (digitRun rest).2.length :=
      (digitRun rest).2.length_tail ▸ Nat.sub_le _ _
    simp only [List.length_cons]
    omega
  · simp only [List.length_cons]
    omega

/-- Line terminators, which JavaScript `.` does not match. -/
def lineTerm (c : Char) : Bool :=
  c = '\n' || c = '\r' || c = '\u2028' || c = '\u2029'

/-- The non-greedy `(.+?)\*\*` of the bold regex: the shortest non-empty run of
non-line-terminator characters followed by a closing `**`, together with the
remainder after the closer. -/
def boldClose : List Char → Option (List Char × List Char)
  | [] => none
  | [_] => none
  | [_, _] => none
  | c1 :: c2 :: c3 :: rest =>
    if lineTerm c1 then none
    else if c2 = '*' ∧ c3 = '*' then some ([c1], rest)
    else
      match boldClose (c2 :: c3 :: rest) with
      | some (cont, r) => some (c1 :: cont, r)
      | none => none

theorem boldClose_split : ∀ {l cont r : List Char}, boldClose l = some (cont, r) →
    l = cont ++ '*' :: '*' :: r ∧ cont ≠ [] := by
  intro l
  induction l with
  | nil => intro cont r h; simp [boldClose] at h
  | cons c1 rest ih =>
    intro cont r h
    match rest with
    | [] => simp [boldClose] at h
    | [c2] => simp [boldClose] at h
    | c2 :: c3 :: rest2 =>
      by_cases hterm : lineTerm c1
      · simp [boldClose, hterm] at h
      · by_cases hstars : c2 = '*' ∧ c3 = '*'
        · simp only [boldClose, hterm, if_false, Bool.false_eq_true, if_pos hstars,
            Option.some.injEq, Prod.mk.injEq] at h
          obtain ⟨rfl, rfl⟩ := h
          simp [hstars.1, hstars.2]
        · simp only [boldClose, hterm, Bool.false_eq_true, if_false, if_neg hstars] at h
          cases hrec : boldClose (c2 :: c3 :: rest2) with
          | none => rw [hrec] at h; simp at h
          | some p =>
            rw [hrec] at h
            obtain ⟨cont2, r2⟩ := p
            simp only [Option.some.injEq, Prod.mk.injEq] at h
            obtain ⟨rfl, rfl⟩ := h
            obtain ⟨heq, _⟩ := ih hrec
            simp [heq]

/-- The bold rewrite `content.replace(/\*\*(.+?)\*\*/g, '<strong>$1</strong>')`:
a global left-to-right scan. -/
def boldRewrite : List Char → List Char
  | [] => []
  | [c] => [c]
  | c1 :: c2 :: rest =>
    if c1 = '*' ∧ c2 = '*' then
      match h : boldClose rest with
      | some (cont, r) => strongOpenTag ++ cont ++ strongCloseTag ++ boldRewrite r
      | none => '*' :: boldRewrite ('*' :: rest)
    else c1 :: boldRewrite (c2 :: rest)
termination_by l => l.length
decreasing_by
  · have hlen : rest.length = cont.length + 2 + r.length := by
      rw [(boldClose_split h).1]; simp; omega
    simp only [List.length_cons]
    omega
  · simp only [List.length_cons]; omega
  · simp only [List.length_cons]; omega

/-- The non-greedy `(.+?)\*` of the italic regex. -/
def italicClose : List Char → Option (List Char × List Char)
  | [] => none
  | [_] => none
  | c1 :: c2 :: rest =>
    if lineTerm c1 then none
    else if c2 = '*' then some ([c1], rest)
    else
      match italicClose (c2 :: rest) with
      | some (cont, r) => some (c1 :: cont, r)
      | none => none

theorem italicClose_split : ∀ {l cont r : List Char}, italicClose l = some (cont, r) →
    l = cont ++ '*' :: r ∧ cont ≠ [] := by
  intro l
  induction l with
  | nil => intro cont r h; simp [italicClose] at h
  | cons c1 rest ih =>
    intro cont r h
    match rest with
    | [] => simp [italicClose] at h
    | c2 :: rest2 =>
      by_cases hterm : lineTerm c1
      · simp [italicClose, hterm] at h
      · by_cases hstar : c2 = '*'
        · simp only [italicClose, hterm, Bool.false_eq_true, if_false, if_pos hstar,
            Option.some.injEq, Prod.mk.injEq] at h
          obtain ⟨rfl, rfl⟩ := h
          simp [hstar]
        · simp only [italicClose, hterm, Bool.false_eq_true, if_false, if_neg hstar] at h
          cases hrec : italicClose (c2 :: rest2) with
          | none => rw [hrec] at h; simp at h
          | some p =>
            rw [hrec] at h
            obtain ⟨cont2, r2⟩ := p
            simp only [Option.some.injEq, Prod.mk.injEq] at h
            obtain ⟨rfl, rfl⟩ := h
            obtain ⟨heq, _⟩ := ih hrec
            simp [heq]

/-- The italic rewrite `content.replace(/\*(.+?)\*/g, '<em>$1</em>')`. -/
def italicRewrite : List Char → List Char
  | [] => []
  | c :: rest =>
    if c = '*' then
      match h : italicClose rest with
      | some (cont, r) => emOpenTag ++ cont ++ emCloseTag ++ italicRewrite r
      | none => '*' :: italicRewrite rest
    else c :: italicRewrite rest
termination_by l => l.length
decreasing_by
  · have hlen : rest.length = cont.length + 1 + r.length := by
      rw [(italicClose_split h).1]; simp; omega
    simp only [List.length_cons]
    omega
  · simp only [List.length_cons]; omega
  · simp only [List.length_cons]; omega

/-- `formattedContent` from MessageBubble.vue: escape `&`, `<`, `>` first, then
rewrite citation markers, bold, italic, and newlines. -/
def formattedContent (content : String) : List Char :=
  replaceChar '\n' brTag
    (italicRewrite (boldRewrite (citeRewrite (escapeHtml content.data))))

/-- Strings safe to inject through `v-html`: concatenations of ordinary
characters (never `<` or `>`) and whole tags from the fixed rewrite set. -/
inductive SafeHtml : List Char → Prop
  | nil : SafeHtml []
  | chr {c : Char} {l : List Char} : c ≠ '<' → c ≠ '>' → SafeHtml l → SafeHtml (c :: l)
  | tag {t l : List Char} : t ∈ allowedTags → SafeHtml l → SafeHtml (t ++ l)

theorem allowedTags_head : ∀ t ∈ allowedTags, t.head? = some '<' := by decide

theorem allowedTags_ne_nil : ∀ t ∈ allowedTags, t ≠ [] := by decide

theorem star_notin_tags : ∀ t ∈ allowedTags, '*' ∉ t := by decide

theorem newline_notin_tags : ∀ t ∈ allowedTags, '\n' ∉ t := by decide

theorem safe_append {a b : List Char} (ha : SafeHtml a) (hb : SafeHtml b) :
    SafeHtml (a ++ b) := by
  induction ha with
  | nil => exact hb
  | chr h1 h2 _ ih => exact SafeHtml.chr h1 h2 ih
  | tag ht _ ih =>
    rw [List.append_assoc]
    exact SafeHtml.tag ht ih

theorem noangle_safe {l : List Char} (h : ∀ c ∈ l, c ≠ '<' ∧ c ≠ '>') : SafeHtml l := by
  induction l with
  | nil => exact SafeHtml.nil
  | cons c rest ih =>
    exact SafeHtml.chr (h c (List.mem_cons_self _ _)).1 (h c (List.mem_cons_self _ _)).2
      (ih fun x hx => h x (List.mem_cons_of_mem _ hx))

theorem safe_tag {t : List Char} (ht : t ∈ allowedTags) : SafeHtml t := by
  have := SafeHtml.tag ht SafeHtml.nil
  simpa using this

theorem safe_inv : ∀ {m : List Char}, SafeHtml m →
    ∀ {c : Char} {l : List Char}, m = c :: l → c ≠ '<' → SafeHtml l := by
  intro m h
  induction h with
  | nil =>
    intro c l heq _
    exact absurd heq (by simp)
  | chr _ _ h3 _ =>
    intro c l heq _
    injection heq with h1 h2
    exact h2 ▸ h3
  | tag ht h3 ih =>
    rename_i t l0
    intro c l heq hc
    cases t with
    | nil => exact absurd rfl (allowedTags_ne_nil _ ht)
    | cons t0 ts =>
      exfalso
      apply hc
      rw [List.cons_append] at heq
      injection heq with h1 _
      have hhd := allowedTags_head _ ht
      simp only [List.head?_cons, Option.some.injEq] at hhd
      rw [← h1, hhd]

theorem safe_cons_of_ne {c : Char} {l : List Char} (h : SafeHtml (c :: l))
    (hc : c ≠ '<') : SafeHtml l :=
  safe_inv h rfl hc

theorem safe_split {x : Char} (hx : ∀ t ∈ allowedTags, x ∉ t) :
    ∀ {l : List Char}, SafeHtml l → ∀ a b, l = a ++ x :: b →
      SafeHtml a ∧ SafeHtml (x :: b) := by
  intro l h
  induction h with
  | nil =>
    intro a b hab
    exact absurd hab.symm (by simp)
  | chr h1 h2 h3 ih =>
    rename_i c l0
    intro a b hab
    cases a with
    | nil =>
      rw [List.nil_append] at hab
      injection hab with hc hl
      subst hc
      subst hl
      exact ⟨SafeHtml.nil, SafeHtml.chr h1 h2 h3⟩
    | cons a0 as =>
      rw [List.cons_append] at hab
      injection hab with hc hl
      subst hc
      obtain ⟨hs1, hs2⟩ := ih as b hl
      exact ⟨SafeHtml.chr h1 h2 hs1, hs2⟩
  | tag ht h3 ih =>
    rename_i t l0
    intro a b hab
    rcases List.append_eq_append_iff.mp hab with ⟨w, hw1, hw2⟩ | ⟨w, hw1, hw2⟩
    · obtain ⟨hs1, hs2⟩ := ih w b hw2
      exact ⟨hw1 ▸ SafeHtml.tag ht hs1, hs2⟩
    · cases w with
      | nil =>
        simp only [List.append_nil] at hw1
        simp only [List.nil_append] at hw2
        subst hw1
        exact ⟨safe_tag ht, hw2 ▸ h3⟩
      | cons w0 ws =>
        exfalso
        simp only [List.cons_append, List.cons.injEq] at hw2
        obtain ⟨rfl, _⟩ := hw2
        exact hx t ht (hw1 ▸ List.mem_append_right a (List.mem_cons_self _ _))

theorem mem_replaceChar {x c : Char} {rep l : List Char}
    (h : x ∈ replaceChar c rep l) : x ∈ rep ∨ (x ∈ l ∧ x ≠ c) := by
  induction l with
  | nil => simp [replaceChar] at h
  | cons y rest ih =>
    simp only [replaceChar] at h
    rcases List.mem_append.mp h with h1 | h1
    · by_cases hyc : y = c
      · rw [if_pos hyc] at h1
        exact Or.inl h1
      · rw [if_neg hyc] at h1
        simp only [List.mem_singleton] at h1
        subst h1
        exact Or.inr ⟨List.mem_cons_self _ _, hyc⟩
    · rcases ih h1 with h2 | ⟨h2, h3⟩
      · exact Or.inl h2
      · exact Or.inr ⟨List.mem_cons_of_mem _ h2, h3⟩

theorem replaceChar_append (c : Char) (rep a b : List Char) :
    replaceChar c rep (a ++ b) = replaceChar c rep a ++ replaceChar c rep b := by
  induction a with
  | nil => rfl
  | cons x rest ih => simp [replaceChar, ih]

theorem replaceChar_id_of_notin {c : Char} {rep l : List Char} (h : c ∉ l) :
    replaceChar c rep l = l := by
  induction l with
  | nil => rfl
  | cons x rest ih =>
    have hx : x ≠ c := fun hxc => h (hxc ▸ List.mem_cons_self _ _)
    simp only [replaceChar, if_neg hx, List.singleton_append, List.cons.injEq]
    exact ⟨trivial, ih fun hc => h (List.mem_cons_of_mem _ hc)⟩

theorem gtEntity_noangle : ∀ x ∈ gtEntity, x ≠ '<' ∧ x ≠ '>' := by decide

theorem ltEntity_noangle : ∀ x ∈ ltEntity, x ≠ '<' ∧ x ≠ '>' := by decide

/-- The escape stage leaves no `<` and no `>` anywhere in its output. -/
theorem escapeHtml_noangle (l : List Char) :
    ∀ x ∈ escapeHtml l, x ≠ '<' ∧ x ≠ '>' := by
  intro x hx
  rcases mem_replaceChar hx with hg | ⟨hx2, hgt⟩
  · exact gtEntity_noangle x hg
  · rcases mem_replaceChar hx2 with hl | ⟨_, hlt⟩
    · exact ⟨(ltEntity_noangle x hl).1, hgt⟩
    · exact ⟨hlt, hgt⟩

theorem safe_newlineRewrite {l : List Char} (h : SafeHtml l) :
    SafeHtml (replaceChar '\n' brTag l) := by
  induction h with
  | nil => exact SafeHtml.nil
  | chr h1 h2 h3 ih =>
    rename_i c l0
    simp only [replaceChar]
    by_cases hc : c = '\n'
    · rw [if_pos hc]
      exact SafeHtml.tag (by simp [allowedTags]) ih
    · rw [if_neg hc, List.singleton_append]
      exact SafeHtml.chr h1 h2 ih
  | tag ht h3 ih =>
    rename_i t l0
    rw [replaceChar_append, replaceChar_id_of_notin (newline_notin_tags t ht)]
    exact SafeHtml.tag ht ih

theorem spanOpen_mem : spanOpenTag ∈ allowedTags := by simp [allowedTags]

theorem spanClose_mem : spanCloseTag ∈ allowedTags := by simp [allowedTags]

theorem strongOpen_mem : strongOpenTag ∈ allowedTags := by simp [allowedTags]

theorem strongClose_mem : strongCloseTag ∈ allowedTags := by simp [allowedTags]

theorem emOpen_mem : emOpenTag ∈ allowedTags := by simp [allowedTags]

theorem emClose_mem : emCloseTag ∈ allowedTags := by simp [allowedTags]

theorem star_ne_lt : ('*' : Char) ≠ '<' := by decide

theorem star_ne_gt : ('*' : Char) ≠ '>' := by decide

theorem safe_citePre : SafeHtml citePre :=
  SafeHtml.tag (by simp [allowedTags])
    (SafeHtml.chr (by decide) (by decide) (safe_tag (by simp [allowedTags])))

theorem safe_citePost : SafeHtml citePost :=
  SafeHtml.tag (by simp [allowedTags])
    (SafeHtml.chr (by decide) (by decide) (safe_tag (by simp [allowedTags])))

theorem safe_citeRewrite_aux : ∀ n (l : List Char), l.length ≤ n →
    (∀ x ∈ l, x ≠ '<' ∧ x ≠ '>') → SafeHtml (citeRewrite l) := by
  intro n
  induction n with
  | zero =>
    intro l hl _
    have : l = [] := List.eq_nil_of_length_eq_zero (Nat.le_zero.mp hl)
    subst this
    simpa [citeRewrite] using SafeHtml.nil
  | succ n ih =>
    intro l hl h
    cases l with
    | nil => simpa [citeRewrite] using SafeHtml.nil
    | cons c rest =>
      by_cases hcond : c = '[' ∧ (digitRun rest).1 ≠ [] ∧ (digitRun rest).2.head? = some ']'
      · simp only [citeRewrite, if_pos hcond]
        have hsplit := digitRun_append rest
        cases hp2 : (digitRun rest).2 with
        | nil => rw [hp2] at hcond; simp at hcond
        | cons p0 ps =>
          have hds : SafeHtml (digitRun rest).1 := by
            apply noangle_safe
            intro x hx
            apply h
            apply List.mem_cons_of_mem
            rw [← hsplit]
            exact List.mem_append_left _ hx
          have hps : ∀ x ∈ ps, x ≠ '<' ∧ x ≠ '>' := by
            intro x hx
            apply h
            apply List.mem_cons_of_mem
            rw [← hsplit]
            exact List.mem_append_right _ (hp2 ▸ List.mem_cons_of_mem _ hx)
          have hlen : ps.length ≤ n := by
            have h1 := digitRun_snd_length rest
            rw [hp2] at h1
            simp only [List.length_cons] at h1 hl
            omega
          have hrec : SafeHtml (citeRewrite ps) := ih ps hlen hps
          simp only [List.tail_cons]
          exact safe_append (safe_append (safe_append safe_citePre hds) safe_citePost) hrec
      · simp only [citeRewrite, if_neg hcond]
        exact SafeHtml.chr (h c (List.mem_cons_self _ _)).1 (h c (List.mem_cons_self _ _)).2
          (ih rest (by simp only [List.length_cons] at hl; omega)
            (fun x hx => h x (List.mem_cons_of_mem _ hx)))

theorem safe_citeRewrite {l : List Char} (h : ∀ x ∈ l, x ≠ '<' ∧ x ≠ '>') :
    SafeHtml (citeRewrite l) :=
  safe_citeRewrite_aux l.length l (Nat.le_refl _) h

theorem boldRewrite_cons_ne {c : Char} (hc : c ≠ '*') (l : List Char) :
    boldRewrite (c :: l) = c :: boldRewrite l := by
  cases l with
  | nil => simp [boldRewrite]
  | cons c2 rest =>
    have hn : ¬ (c = '*' ∧ c2 = '*') := fun hp => hc hp.1
    simp only [boldRewrite, if_neg hn]

theorem boldRewrite_star_cons_ne {c2 : Char} (hc2 : c2 ≠ '*') (l1 : List Char) :
    boldRewrite ('*' :: c2 :: l1) = '*' :: boldRewrite (c2 :: l1) := by
  simp [boldRewrite, hc2]

theorem boldRewrite_two_star_some {l1 cont r : List Char}
    (hbc : boldClose l1 = some (cont, r)) :
    boldRewrite ('*' :: '*' :: l1)
      = strongOpenTag ++ cont ++ strongCloseTag ++ boldRewrite r := by
  simp only [boldRewrite]
  split
  · split
    · rename_i cont2 r2 heq
      rw [hbc] at heq
      simp only [Option.some.injEq, Prod.mk.injEq] at heq
      obtain ⟨rfl, rfl⟩ := heq
      rfl
    · rename_i heq
      rw [hbc] at heq
      simp at heq
  · rename_i hcondn
    simp at hcondn

theorem boldRewrite_two_star_none {l1 : List Char} (hbc : boldClose l1 = none) :
    boldRewrite ('*' :: '*' :: l1) = '*' :: boldRewrite ('*' :: l1) := by
  simp only [boldRewrite]
  split
  · split
    · rename_i cont2 r2 heq
      rw [hbc] at heq
      simp at heq
    · rfl
  · rename_i hcondn
    simp at hcondn

theorem boldRewrite_append_no_star {a : List Char} (ha : '*' ∉ a) :
    ∀ b, boldRewrite (a ++ b) = a ++ boldRewrite b := by
  induction a with
  | nil => intro b; rfl
  | cons c as ih =>
    intro b
    have hc : c ≠ '*' := fun hcc => ha (hcc ▸ List.mem_cons_self _ _)
    rw [List.cons_append, boldRewrite_cons_ne hc,
      ih (fun hs => ha (List.mem_cons_of_mem _ hs)) b, List.cons_append]

theorem safe_boldRewrite_aux : ∀ n (l : List Char), l.length ≤ n →
    SafeHtml l → SafeHtml (boldRewrite l) := by
  intro n
  induction n with
  | zero =>
    intro l hl _
    have : l = [] := List.eq_nil_of_length_eq_zero (Nat.le_zero.mp hl)
    subst this
    simpa [boldRewrite] using SafeHtml.nil
  | succ n ih =>
    intro l hl h
    cases h with
    | nil => simpa [boldRewrite] using SafeHtml.nil
    | chr h1 h2 h3 =>
      rename_i c l0
      by_cases hc : c = '*'
      · subst hc
        cases l0 with
        | nil => simpa [boldRewrite] using SafeHtml.chr h1 h2 SafeHtml.nil
        | cons c2 l1 =>
          by_cases hc2 : c2 = '*'
          · subst hc2
            cases hbc : boldClose l1 with
            | none =>
              rw [boldRewrite_two_star_none hbc]
              refine SafeHtml.chr star_ne_lt star_ne_gt ?_
              exact ih ('*' :: l1) (by simp only [List.length_cons] at hl ⊢; omega) h3
            | some p =>
              obtain ⟨cont, r⟩ := p
              rw [boldRewrite_two_star_some hbc]
              obtain ⟨hsplit, hcne⟩ := boldClose_split hbc
              have hsafe1 : SafeHtml l1 := safe_cons_of_ne h3 star_ne_lt
              have hsp := safe_split star_notin_tags hsafe1 cont ('*' :: r) (by rw [hsplit])
              have hr : SafeHtml r :=
                safe_cons_of_ne (safe_cons_of_ne hsp.2 star_ne_lt) star_ne_lt
              have hlen1 : l1.length = cont.length + 2 + r.length := by
                rw [hsplit]
                simp only [List.length_append, List.length_cons]
                omega
              have hrec : SafeHtml (boldRewrite r) := by
                apply ih r _ hr
                have hcl : 1 ≤ cont.length := List.length_pos.mpr hcne
                simp only [List.length_cons] at hl
                omega
              exact safe_append (safe_append (safe_append
                (safe_tag strongOpen_mem) hsp.1) (safe_tag strongClose_mem)) hrec
          · rw [boldRewrite_star_cons_ne hc2]
            refine SafeHtml.chr h1 h2 ?_
            exact ih (c2 :: l1) (by simp only [List.length_cons] at hl ⊢; omega) h3
      · rw [boldRewrite_cons_ne hc]
        exact SafeHtml.chr h1 h2
          (ih l0 (by simp only [List.length_cons] at hl; omega) h3)
    | tag ht h3 =>
      rename_i t l0
      rw [boldRewrite_append_no_star (star_notin_tags t ht)]
      refine SafeHtml.tag ht ?_
      apply ih l0 _ h3
      have htl : 1 ≤ t.length := List.length_pos.mpr (allowedTags_ne_nil t ht)
      rw [List.length_append] at hl
      omega

theorem safe_boldRewrite {l : List Char} (h : SafeHtml l) : SafeHtml (boldRewrite l) :=
  safe_boldRewrite_aux l.length l (Nat.le_refl _) h

theorem italicRewrite_cons_ne {c : Char} (hc : c ≠ '*') (l : List Char) :
    italicRewrite (c :: l) = c :: italicRewrite l := by
  simp only [italicRewrite, if_neg hc]

theorem italicRewrite_star_some {l0 cont r : List Char}
    (hic : italicClose l0 = some (cont, r)) :
    italicRewrite ('*' :: l0)
      = emOpenTag ++ cont ++ emCloseTag ++ italicRewrite r := by
  simp only [italicRewrite]
  split
  · split
    · rename_i cont2 r2 heq
      rw [hic] at heq
      simp only [Option.some.injEq, Prod.mk.injEq] at heq
      obtain ⟨rfl, rfl⟩ := heq
      rfl
    · rename_i heq
      rw [hic] at heq
      simp at heq
  · rename_i hcondn
    simp at hcondn

theorem italicRewrite_star_none {l0 : List Char} (hic : italicClose l0 = none) :
    italicRewrite ('*' :: l0) = '*' :: italicRewrite l0 := by
  simp only [italicRewrite]
  split
  · split
    · rename_i cont2 r2 heq
      rw [hic] at heq
      simp at heq
    · rfl
  · rename_i hcondn
    simp at hcondn

theorem italicRewrite_append_no_star {a : List Char} (ha : '*' ∉ a) :
    ∀ b, italicRewrite (a ++ b) = a ++ italicRewrite b := by
  induction a with
  | nil => intro b; rfl
  | cons c as ih =>
    intro b
    have hc : c ≠ '*' := fun hcc => ha (hcc ▸ List.mem_cons_self _ _)
    rw [List.cons_append, italicRewrite_cons_ne hc,
      ih (fun hs => ha (List.mem_cons_of_mem _ hs)) b, List.cons_append]

theorem safe_italicRewrite_aux : ∀ n (l : List Char), l.length ≤ n →
    SafeHtml l → SafeHtml (italicRewrite l) := by
  intro n
  induction n with
  | zero =>
    intro l hl _
    have : l = [] := List.eq_nil_of_length_eq_zero (Nat.le_zero.mp hl)
    subst this
    simpa [italicRewrite] using SafeHtml.nil
  | succ n ih =>
    intro l hl h
    cases h with
    | nil => simpa [italicRewrite] using SafeHtml.nil
    | chr h1 h2 h3 =>
      rename_i c l0
      by_cases hc : c = '*'
      · subst hc
        cases hic : italicClose l0 with
        | none =>
          rw [italicRewrite_star_none hic]
          refine SafeHtml.chr star_ne_lt star_ne_gt ?_
          exact ih l0 (by simp only [List.length_cons] at hl; omega) h3
        | some p =>
          obtain ⟨cont, r⟩ := p
          rw [italicRewrite_star_some hic]
          obtain ⟨hsplit, hcne⟩ := italicClose_split hic
          have hsp := safe_split star_notin_tags h3 cont r (by rw [hsplit])
          have hr : SafeHtml r := safe_cons_of_ne hsp.2 star_ne_lt
          have hlen1 : l0.length = cont.length + 1 + r.length := by
            rw [hsplit]
            simp only [List.length_append, List.length_cons]
            omega
          have hrec : SafeHtml (italicRewrite r) := by
            apply ih r _ hr
            have hcl : 1 ≤ cont.length := List.length_pos.mpr hcne
            simp only [List.length_cons] at hl
            omega
          exact safe_append (safe_append (safe_append
            (safe_tag emOpen_mem) hsp.1) (safe_tag emClose_mem)) hrec
      · rw [italicRewrite_cons_ne hc]
        exact SafeHtml.chr h1 h2
          (ih l0 (by simp only [List.length_cons] at hl; omega) h3)
    | tag ht h3 =>
      rename_i t l0
      rw [italicRewrite_append_no_star (star_notin_tags t ht)]
      refine SafeHtml.tag ht ?_
      apply ih l0 _ h3
      have htl : 1 ≤ t.length := List.length_pos.mpr (allowedTags_ne_nil t ht)
      rw [List.length_append] at hl
      omega

theorem safe_italicRewrite {l : List Char} (h : SafeHtml l) : SafeHtml (italicRewrite l) :=
  safe_italicRewrite_aux l.length l (Nat.le_refl _) h

/-- C8: `formattedContent` escapes every `&`, `<`, `>` of the message content
before any other rewrite, so the escaped intermediate contains no `<` or `>`
at all, and the final output is a concatenation of angle-free text and whole
tags from the fixed rewrite set (`<span class="citation-ref" ...>`, `</span>`,
`<strong>`, `</strong>`, `<em>`, `</em>`, `<br>`): every HTML tag in the
output comes only from the fixed citation/bold/italic/newline rewrites. -/
theorem formattedContent_safe (content : String) :
    (∀ x ∈ escapeHtml content.data, x ≠ '<' ∧ x ≠ '>') ∧
    SafeHtml (formattedContent content) := by
  refine ⟨escapeHtml_noangle content.data, ?_⟩
  unfold formattedContent
  exact safe_newlineRewrite (safe_italicRewrite (safe_boldRewrite
    (safe_citeRewrite (escapeHtml_noangle content.data))))

theorem formattedContent_safe_witness :
    ('&' ∈ escapeHtml ("<" : String).data) ∧ ('&' ≠ '<' ∧ '&' ≠ '>') :=
  ⟨by decide, (formattedContent_safe "<").1 '&' (by decide)⟩

end OntarioDoctor
